import Mathlib

/-!
# Verification of the mr-modpack bundling engine

Shallow embedding of the algorithmic core of the repository:
* the tolerant version parser (`SemanticVersion::from_str`, `src/app/mod.rs`),
* the compatibility-matrix builder (the `Collection` component's
  `available_versions` map, `src/app/mod.rs`),
* the catalog index (`ModrinthClient::get_project` and the
  `global_projects` store, `src/app/modrinth/api.rs`),
* the dependency resolver / bundle loop (`download_zip`, `src/app/mod.rs`),
* the archive-path derivation of `download_zip`.

Rust machine integers are modelled as `Nat` with explicit bounds where
overflow matters (`u32` parsing checks `< 2^32`); fallible Rust code is
modelled with `Except`/`Option`, and a Rust panic (`unwrap`/`[]` out of
bounds) is modelled as an explicit error value.
-/

namespace MrModpack

/-! ## Version parser (`SemanticVersion::from_str`)

Strings are modelled as `List Char` (`String.data`).  Rust's
`char::is_numeric` (true on the Unicode numeric categories, not just
ASCII digits) controls the run segmentation of the parser, while
`u32::from_str` accepts only ASCII digits, so the two predicates are
modelled separately and faithfully. -/

/-- The code-point ranges of the Unicode general categories `Nd`, `Nl`
and `No` (Unicode 14.0.0) — exactly the categories for which Rust's
`char::is_numeric` returns `true`.  The table matters to the parser:
a *non-ASCII* numeral (e.g. `'٣'`, `'¾'`) extends a digit run in the
source before `u32::from_str` rejects the run. -/
def numericRanges : List (Nat × Nat) :=
  [(48, 57), (178, 179), (185, 185), (188, 190), (1632, 1641),
   (1776, 1785), (1984, 1993), (2406, 2415), (2534, 2543), (2548, 2553),
   (2662, 2671), (2790, 2799), (2918, 2927), (2930, 2935), (3046, 3058),
   (3174, 3183), (3192, 3198), (3302, 3311), (3416, 3422), (3430, 3448),
   (3558, 3567), (3664, 3673), (3792, 3801), (3872, 3891), (4160, 4169),
   (4240, 4249), (4969, 4988), (5870, 5872), (6112, 6121), (6128, 6137),
   (6160, 6169), (6470, 6479), (6608, 6618), (6784, 6793), (6800, 6809),
   (6992, 7001), (7088, 7097), (7232, 7241), (7248, 7257), (8304, 8304),
   (8308, 8313), (8320, 8329), (8528, 8578), (8581, 8585), (9312, 9371),
   (9450, 9471), (10102, 10131), (11517, 11517), (12295, 12295),
   (12321, 12329), (12344, 12346), (12690, 12693), (12832, 12841),
   (12872, 12879), (12881, 12895), (12928, 12937), (12977, 12991),
   (42528, 42537), (42726, 42735), (43056, 43061), (43216, 43225),
   (43264, 43273), (43472, 43481), (43504, 43513), (43600, 43609),
   (44016, 44025), (65296, 65305), (65799, 65843), (65856, 65912),
   (65930, 65931), (66273, 66299), (66336, 66339), (66369, 66369),
   (66378, 66378), (66513, 66517), (66720, 66729), (67672, 67679),
   (67705, 67711), (67751, 67759), (67835, 67839), (67862, 67867),
   (68028, 68029), (68032, 68047), (68050, 68095), (68160, 68168),
   (68221, 68222), (68253, 68255), (68331, 68335), (68440, 68447),
   (68472, 68479), (68521, 68527), (68858, 68863), (68912, 68921),
   (69216, 69246), (69405, 69414), (69457, 69460), (69573, 69579),
   (69714, 69743), (69872, 69881), (69942, 69951), (70096, 70105),
   (70113, 70132), (70384, 70393), (70736, 70745), (70864, 70873),
   (71248, 71257), (71360, 71369), (71472, 71483), (71904, 71922),
   (72016, 72025), (72784, 72812), (73040, 73049), (73120, 73129),
   (73664, 73684), (74752, 74862), (92768, 92777), (92864, 92873),
   (93008, 93017), (93019, 93025), (93824, 93846), (119520, 119539),
   (119648, 119672), (120782, 120831), (123200, 123209), (123632, 123641),
   (125127, 125135), (125264, 125273), (126065, 126123), (126125, 126127),
   (126129, 126132), (126209, 126253), (126255, 126269), (127232, 127244),
   (130032, 130041)]

/-- Models Rust `char::is_numeric`: true exactly on the Unicode numeric
categories `Nd`, `Nl`, `No` (via `numericRanges`). -/
def isNumericChar (c : Char) : Bool :=
  numericRanges.any (fun r => r.1 ≤ c.toNat && c.toNat ≤ r.2)

/-- Models the repository's `StrExt::split_prefix` (`src/app/mod.rs`):
splits off the maximal leading run of characters matching `p`; returns
`none` when every character matches `p` (the searcher never rejects). -/
def splitLeading (p : Char → Bool) (s : List Char) :
    Option (List Char × List Char) :=
  if s.all p then none else some (s.takeWhile p, s.dropWhile p)

/-- Models `str::split_once` with a character-predicate pattern: splits
around the first character matching `p`, excluding that character. -/
def splitOnceAt (p : Char → Bool) (s : List Char) :
    Option (List Char × List Char) :=
  if s.any p then
    some (s.takeWhile (fun c => !p c), (s.dropWhile (fun c => !p c)).tail)
  else none

/-- Decimal value of a digit run (the value `u32::from_str` computes). -/
def digitsVal (s : List Char) : Nat :=
  s.foldl (fun acc c => 10 * acc + (c.toNat - 48)) 0

/-- Models `str::parse::<u32>` on the inputs produced by the version
parser: empty input fails, a run containing a non-digit fails, and a
value of `2^32` or more overflows. -/
def parseU32 (s : List Char) : Except Unit Nat :=
  if s.isEmpty then .error ()
  else if s.all Char.isDigit then
    if digitsVal s < 4294967296 then .ok (digitsVal s) else .error ()
  else .error ()

/-- The canonical version triple (`SemanticVersion`, fields `u32`;
the parser only ever produces values below `2^32`). -/
structure SemanticVersion where
  major : Nat
  minor : Nat
  patch : Nat
deriving DecidableEq, Repr

/-- Models `SemanticVersion::from_str` (`src/app/mod.rs:145-185`) on the
character list of the input:
1. reject the empty string;
2. drop the maximal leading non-numeric run;
3. read a digit run as `major` (parse failure aborts);
4. if a `.` follows, read a digit run as `minor`, and if another `.`
   follows read the run up to the first non-digit as `patch`;
   a missing `.` yields `0` for the remaining components. -/
def fromChars (s : List Char) : Except Unit SemanticVersion :=
  if s.isEmpty then .error ()
  else
    let rest :=
      match splitLeading (fun c => !isNumericChar c) s with
      | some (_, r) => r
      | none => []
    let fr :=
      match splitLeading isNumericChar rest with
      | some p => p
      | none => (rest, [])
    match parseU32 fr.1 with
    | .error _ => .error ()
    | .ok major =>
      match fr.2 with
      | '.' :: rest2 =>
        let fr2 :=
          match splitLeading isNumericChar rest2 with
          | some p => p
          | none => (rest2, [])
        match parseU32 fr2.1 with
        | .error _ => .error ()
        | .ok minor =>
          match fr2.2 with
          | '.' :: rest3 =>
            let fr3 :=
              match splitOnceAt (fun c => !isNumericChar c) rest3 with
              | some p => p
              | none => (rest3, [])
            match parseU32 fr3.1 with
            | .error _ => .error ()
            | .ok patch => .ok ⟨major, minor, patch⟩
          | _ => .ok ⟨major, minor, 0⟩
      | _ => .ok ⟨major, 0, 0⟩

/-- `SemanticVersion::from_str` on a `String`. -/
def SemanticVersion.fromStr (s : String) : Except Unit SemanticVersion :=
  fromChars s.data

/-! ## Data model (ferinth `Project` / `Version` records, restricted to
the fields the engine reads) -/

/-- One candidate file of a release (`Version.files` entries). -/
structure RFile where
  filename : String
  url : String
  primary : Bool
deriving DecidableEq, Repr

/-- `ferinth::structures::version::DependencyType`. -/
inductive DependencyType where
  | required
  | optional
  | incompatible
  | embedded
deriving DecidableEq, Repr

/-- One dependency edge of a release (`Version.dependencies` entries).
`project_id` is optional in the wire format; `download_zip` calls
`.unwrap()` on it. -/
structure Dependency where
  project_id : Option String
  dependency_type : DependencyType
deriving DecidableEq, Repr

/-- A fetched version record (`ferinth Version`), restricted to the
fields `download_zip` reads.  `date_published` is the publish timestamp,
modelled as a `Nat` (timestamps are totally ordered). -/
structure Release where
  name : String
  version_number : String
  date_published : Nat
  files : List RFile
  dependencies : List Dependency
deriving DecidableEq, Repr

/-- A fetched project record (`ferinth Project`), restricted to the
fields the engine reads. -/
structure Project where
  id : String
  slug : String
  title : String
  game_versions : List String
deriving DecidableEq, Repr

/-- `ApiErr` (`src/app/modrinth/api.rs`); the payloads of the transport
variants are irrelevant to the claims. -/
inductive ApiErr where
  | reqwest
  | json
  | ferinth
  | notFound
deriving DecidableEq, Repr

/-! ## Catalog index (`ModrinthClient`, `src/app/modrinth/api.rs`)

The catalog's network side is an environment: pure functions giving the
response of each endpoint.  Within one `download_zip` run the loader and
game-version filters are fixed, so `fetchVersions` is keyed by the
project slug alone. -/

/-- The catalog client's network responses for one session. -/
structure Catalog where
  /-- `Ferinth::get_project` response, keyed by project id. -/
  fetchProject : String → Except ApiErr Project
  /-- `get_project_versions` response (already filtered by the fixed
  `LOADERS` and game version of the run), keyed by project slug. -/
  fetchVersions : String → Except ApiErr (List Release)
  /-- `download_file` response, keyed by URL; bytes as `List Nat`. -/
  downloadFile : String → Except ApiErr (List Nat)

/-- Models `ModrinthClient::get_project` (`api.rs:109-117`): fetch the
project, append it to the `global_projects` store, return the key
`store.len() - 1`.  The store is the first component of the result. -/
def getProject (fetch : String → Except ApiErr Project)
    (globalProjects : List Project) (id : String) :
    Except ApiErr (List Project × Nat) :=
  match fetch id with
  | .error e => .error e
  | .ok p => .ok (globalProjects ++ [p], globalProjects.length)

/-- Models the server function `get_projects` (`src/app/mod.rs:381-396`):
look every requested key up in `global_projects` with the unchecked
index `all_projects[project.0]`.  `none` models the Rust panic on an
out-of-bounds key. -/
def getProjects (store : List Project) : List Nat →
    Option (List (Nat × Project))
  | [] => some []
  | k :: ks =>
    match store.get? k with
    | none => none
    | some p => (getProjects store ks).map (fun rest => (k, p) :: rest)

/-! ## Compatibility-matrix builder (`Collection` component,
`src/app/mod.rs:204-224`)

The `HashMap<SemanticVersion, HashSet<ProjectKey>>` is modelled as an
association list of `(version, member keys)` groups; `HashSet::insert`
adds a key only when absent.  The final ranking of the source sorts the
groups by size, which permutes them without changing any membership
count, so it is omitted here. -/

/-- One `available_versions.entry(version) … insert(key)` step. -/
def groupInsert : List (SemanticVersion × List Nat) → SemanticVersion →
    Nat → List (SemanticVersion × List Nat)
  | [], v, k => [(v, [k])]
  | (v', s) :: rest, v, k =>
    if v' = v then (v', if k ∈ s then s else k :: s) :: rest
    else (v', s) :: groupInsert rest v k

/-- The canonical versions a project declares support for:
`game_versions.iter().filter_map(|v| v.parse().ok())`. -/
def parsedVersions (p : Project) : List SemanticVersion :=
  p.game_versions.filterMap (fun raw => (SemanticVersion.fromStr raw).toOption)

/-- Insert one project's parseable labels into the groups. -/
def addProject (groups : List (SemanticVersion × List Nat)) (k : Nat)
    (p : Project) : List (SemanticVersion × List Nat) :=
  (parsedVersions p).foldl (fun g v => groupInsert g v k) groups

/-- The full `available_versions` map built from the fetched projects. -/
def availableVersions (ps : List (Nat × Project)) :
    List (SemanticVersion × List Nat) :=
  ps.foldl (fun g kp => addProject g kp.1 kp.2) []

/-- Sum over all version groups of the group's membership count. -/
def sumSizes (groups : List (SemanticVersion × List Nat)) : Nat :=
  (groups.map (fun g => g.2.length)).sum

/-- Number of (project, parseable-label) pairs of the input. -/
def pairCount (ps : List (Nat × Project)) : Nat :=
  (ps.map (fun kp => (parsedVersions kp.2).length)).sum

/-- Membership of `k` in the first group keyed by `v` (the group
`HashMap::entry(v)` addresses). -/
def memFirst (groups : List (SemanticVersion × List Nat))
    (v : SemanticVersion) (k : Nat) : Bool :=
  match groups.find? (fun g => g.1 = v) with
  | some g => decide (k ∈ g.2)
  | none => false

/-! ## Dependency resolver / bundle loop (`download_zip`,
`src/app/mod.rs:409-569`)

The loop state carries the shared `global_projects` store, the `todo`
work stack (head = top of stack, matching `Vec::pop` taking the last
pushed element), the `downloaded` id set, and the archive entries
written so far.  Each entry records the id of the project it was written
for together with the entry's filename. -/

/-- `HashSet::insert` on the modelled `downloaded` set. -/
def hsInsert (x : String) (l : List String) : List String :=
  if x ∈ l then l else x :: l

/-- Rust `Iterator::max_by_key`: the maximum under the key, and the
*last* of several equally maximal elements. -/
def maxByKeyLast (f : α → Nat) : List α → Option α
  | [] => none
  | x :: xs => some (xs.foldl (fun m y => if f m ≤ f y then y else m) x)

/-- Models the best-release selection (`src/app/mod.rs:474-501`): pair
every candidate with the semantic version parsed from its label (the
label stripped of the game version and of `major.minor`, defaulting to
`0.0.0` when unparsable), then take the maximum by `date_published`. -/
def chooseLatest (gameVersion : String) (rv : SemanticVersion)
    (versions : List Release) : Option (Release × SemanticVersion) :=
  maxByKeyLast (fun p => p.1.date_published)
    (versions.map (fun v =>
      (v,
        match SemanticVersion.fromStr
            ((v.version_number.replace gameVersion "").replace
              (toString rv.major ++ "." ++ toString rv.minor) "") with
        | .ok sv => sv
        | .error _ => ⟨0, 0, 0⟩)))

/-- Models the primary-file selection (`src/app/mod.rs:504-508`):
`files.iter().find(|f| f.primary).unwrap_or_else(|| files.first().unwrap())`.
`none` models the `unwrap` panic on an empty file list. -/
def pickFile (files : List RFile) : Option RFile :=
  match files.find? (fun f => f.primary) with
  | some f => some f
  | none => files.head?

/-- How one `download_zip` run can fail: a propagated `ApiErr` (the `?`
on `get_project_versions` / `get_project`), or one of the loop's
`unwrap` panics. -/
inductive RunErr where
  /-- `?`-propagated catalog error. -/
  | api : ApiErr → RunErr
  /-- `global_projects[key]` out of bounds. -/
  | panicIndex
  /-- `files.first().unwrap()` on a release with zero files. -/
  | panicNoFiles
  /-- `download_file(..).unwrap()` on a failed download. -/
  | panicDownload : ApiErr → RunErr
  /-- `dep.project_id.unwrap()` on an id-less dependency edge. -/
  | panicNoProjectId
  /-- `versions.max_by_key(..).unwrap()` on an empty iterator
  (guarded by the `is_empty` check; provably unreachable). -/
  | panicEmptyMax
deriving DecidableEq, Repr

/-- The mutable state of the `download_zip` loop. -/
structure ResolveState where
  /-- The shared `global_projects` store. -/
  globalProjects : List Project
  /-- The work stack of `(ProjectKey, ident)` pairs; head = top. -/
  todo : List (Nat × Nat)
  /-- The `downloaded : HashSet<ID>` set of project ids. -/
  downloaded : List String
  /-- Archive entries written so far: (project id, entry filename). -/
  entries : List (String × String)
deriving DecidableEq, Repr

/-- Models the dependency for-loop (`src/app/mod.rs:532-556`): for each
edge, unwrap its project id, skip non-required edges, skip ids already
downloaded, otherwise `get_project` (which appends to the store) and
push the new key at `ident + 1`. -/
def processDeps (cat : Catalog) (ident : Nat) :
    List Dependency → List Project → List (Nat × Nat) → List String →
    Except RunErr (List Project × List (Nat × Nat))
  | [], gp, todo, _ => .ok (gp, todo)
  | dep :: deps, gp, todo, downloaded =>
    match dep.project_id with
    | none => .error .panicNoProjectId
    | some pid =>
      if dep.dependency_type ≠ DependencyType.required then
        processDeps cat ident deps gp todo downloaded
      else if pid ∈ downloaded then
        processDeps cat ident deps gp todo downloaded
      else
        match getProject cat.fetchProject gp pid with
        | .error e => .error (.api e)
        | .ok (gp', key) =>
          processDeps cat ident deps gp' ((key, ident + 1) :: todo) downloaded

/-- One iteration of the `download_zip` loop body
(`src/app/mod.rs:440-557`), after the `(key, ident)` pair has been
popped (`s.todo` is already the remaining stack):
look the key up in the store, skip if already downloaded, query the
releases (empty result skips), choose the latest release, pick its
primary file, download it, write the archive entry, mark the id
downloaded, then walk the dependency edges. -/
def loopIter (cat : Catalog) (gameVersion : String) (rv : SemanticVersion)
    (s : ResolveState) (key ident : Nat) : Except RunErr ResolveState :=
  match s.globalProjects.get? key with
  | none => .error .panicIndex
  | some project =>
    if project.id ∈ s.downloaded then .ok s
    else
      match cat.fetchVersions project.slug with
      | .error e => .error (.api e)
      | .ok versions =>
        if versions.isEmpty then .ok s
        else
          match chooseLatest gameVersion rv versions with
          | none => .error .panicEmptyMax
          | some (latest, _) =>
            match pickFile latest.files with
            | none => .error .panicNoFiles
            | some primaryFile =>
              match cat.downloadFile primaryFile.url with
              | .error e => .error (.panicDownload e)
              | .ok _ =>
                let entries := s.entries ++ [(project.id, primaryFile.filename)]
                let downloaded := hsInsert project.id s.downloaded
                match processDeps cat ident latest.dependencies
                    s.globalProjects s.todo downloaded with
                | .error e => .error e
                | .ok (gp, todo) =>
                  .ok ⟨gp, todo, downloaded, entries⟩

/-- The `while let Some((project, ident)) = todo.pop()` loop, with an
explicit step budget: `none` means the budget ran out, `some` carries
the loop's own outcome (normal completion or a modelled panic /
propagated error). -/
def runFuel (cat : Catalog) (gameVersion : String) (rv : SemanticVersion) :
    Nat → ResolveState → Option (Except RunErr ResolveState)
  | fuel, s =>
    match s.todo with
    | [] => some (.ok s)
    | (key, ident) :: rest =>
      match fuel with
      | 0 => none
      | fuel + 1 =>
        match loopIter cat gameVersion rv { s with todo := rest } key ident with
        | .error e => some (.error e)
        | .ok s' => runFuel cat gameVersion rv fuel s'

/-- The resolver portion of `download_zip`, started on the initial
store (as populated by `get_collection`) and the seed keys of the
chosen version column (the `HashSet<ProjectKey>` argument, in some
iteration order), each at depth `0`. -/
def downloadLoop (cat : Catalog) (gameVersion : String)
    (rv : SemanticVersion) (gp0 : List Project) (seeds : List Nat)
    (fuel : Nat) : Option (Except RunErr ResolveState) :=
  runFuel cat gameVersion rv fuel
    ⟨gp0, seeds.map (fun k => (k, 0)), [], []⟩

/-- Termination measure of the loop: every project id that can still be
downloaded accounts for `B + 1` steps (`B` bounding the out-degree of
any release the catalog can return), plus one step per pending stack
entry. -/
def loopMeasure (U : Finset String) (B : Nat) (s : ResolveState) : Nat :=
  (U.filter (fun id => id ∉ s.downloaded)).card * (B + 1) + s.todo.length

/-! ## Archive path (`download_zip`, `src/app/mod.rs:422-432, 568`)

The archive is created at `…/temp-download-all/{collection_name}-{now}.zip`
and served at `/temp-download-all/{collection_name}-{now}.zip`, where
`now` is the creation time in milliseconds.  `format!`'s rendering of
the `u128` timestamp is ordinary decimal notation, modelled by
`decDigits`. -/

/-- The character of one decimal digit. -/
def decDigit (d : Nat) : Char := Char.ofNat (48 + d)

/-- Decimal rendering of a natural number (Rust `Display` for
integers): most significant digit first, no leading zeros, `0` written
as `"0"`. -/
def decDigits (n : Nat) : List Char :=
  if _h : n < 10 then [decDigit n]
  else decDigits (n / 10) ++ [decDigit (n % 10)]
decreasing_by exact Nat.div_lt_self (by omega) (by omega)

/-- `format!("{}-{now}.zip", collection_name)`: the archive file name. -/
def zipFileName (collectionName : String) (now : Nat) : String :=
  collectionName ++ "-" ++ String.mk (decDigits now) ++ ".zip"

/-- `format!("/temp-download-all/{}-{now}.zip", collection_name)`: the
public retrieval path returned to the caller. -/
def zipUrl (collectionName : String) (now : Nat) : String :=
  "/temp-download-all/" ++ zipFileName collectionName now

/-! ## Concrete fixtures

A two-project catalog with a dependency cycle (`a` requires `b`, `b`
requires `a`), used to evaluate the resolver on the kind of graph the
claims single out, plus small inputs for the remaining claims. -/

def projA : Project := ⟨"a", "a", "Mod A", []⟩

def projB : Project := ⟨"b", "b", "Mod B", []⟩

def projC : Project := ⟨"c", "c", "Mod C", []⟩

def fileA : RFile := ⟨"a.jar", "url-a", true⟩

def fileB : RFile := ⟨"b.jar", "url-b", true⟩

def relA : Release := ⟨"A 1.0.0", "1.0.0", 10, [fileA],
  [⟨some "b", .required⟩]⟩

def relB : Release := ⟨"B 2.0.0", "2.0.0", 20, [fileB],
  [⟨some "a", .required⟩]⟩

/-- A catalog session: projects `a` and `b` require each other, every
other id is unknown and has no releases. -/
def demoCatalog : Catalog where
  fetchProject := fun id =>
    if id = "a" then .ok projA
    else if id = "b" then .ok projB
    else .error .notFound
  fetchVersions := fun slug =>
    if slug = "a" then .ok [relA]
    else if slug = "b" then .ok [relB]
    else .ok []
  downloadFile := fun _ => .ok []

/-- An older release whose version label compares larger. -/
def relOldLabelBig : Release := ⟨"older", "9.9.9", 3, [fileB], []⟩

/-- A newer release whose version label compares smaller. -/
def relNewLabelSmall : Release := ⟨"newer", "1.0.0", 5, [fileA], []⟩

/-- A project declaring two labels that canonicalize to `1.0.0`. -/
def projDup : Project := ⟨"d", "d", "Mod D", ["1.0.0", "v1.0.0"]⟩

def bJar : RFile := ⟨"b.jar", "url-b2", false⟩

def aJar : RFile := ⟨"a.jar", "url-a2", false⟩

/-- The archive-entry invariant of the resolver loop: the ids of the
entries written so far are pairwise distinct, and every one of them is
already in the `downloaded` set. -/
def entriesInv (s : ResolveState) : Prop :=
  (s.entries.map Prod.fst).Nodup ∧ ∀ e ∈ s.entries, e.1 ∈ s.downloaded

/-! # Theorems -/

/-! ## List helpers for the splitter functions -/

theorem takeWhile_dropWhile_append (p : Char → Bool) :
    ∀ (l r : List Char), (∀ x ∈ l, p x = true) →
      (∀ x ∈ r.head?, p x = false) →
      (l ++ r).takeWhile p = l ∧ (l ++ r).dropWhile p = r := by
  intro l
  induction l with
  | nil =>
    intro r _ hr
    cases r with
    | nil => exact ⟨rfl, rfl⟩
    | cons c r' =>
      have hc : p c = false := hr c (by simp)
      simp [List.takeWhile_cons, List.dropWhile_cons, hc]
  | cons a l ih =>
    intro r hl hr
    have ha : p a = true := hl a (by simp)
    have := ih r (fun x hx => hl x (by simp [hx])) hr
    simp [List.takeWhile_cons, List.dropWhile_cons, ha, this.1, this.2]

theorem splitLeading_append (p : Char → Bool) (l : List Char) (c : Char)
    (r : List Char) (hl : ∀ x ∈ l, p x = true) (hc : p c = false) :
    splitLeading p (l ++ c :: r) = some (l, c :: r) := by
  have hall : (l ++ c :: r).all p = false := by
    rw [List.all_append]
    simp [hc]
  have htd := takeWhile_dropWhile_append p l (c :: r) hl (by simpa using hc)
  simp [splitLeading, hall, htd.1, htd.2]

theorem splitLeading_all (p : Char → Bool) (s : List Char)
    (h : ∀ x ∈ s, p x = true) : splitLeading p s = none := by
  have hall : s.all p = true := List.all_eq_true.mpr h
  simp [splitLeading, hall]

/-! ## Version parser lemmas -/

theorem parseU32_digits (s : List Char) (h0 : s ≠ [])
    (hd : ∀ x ∈ s, x.isDigit = true) (hlt : digitsVal s < 4294967296) :
    parseU32 s = .ok (digitsVal s) := by
  have hall : s.all Char.isDigit = true := List.all_eq_true.mpr hd
  simp [parseU32, h0, hall, hlt]

/-- An ASCII digit is Unicode-numeric (range `(48, 57)` is the `Nd`
fragment `0-9` of `numericRanges`). -/
theorem isNumericChar_of_isDigit (c : Char) (h : c.isDigit = true) :
    isNumericChar c = true := by
  simp only [Char.isDigit, ge_iff_le, Bool.and_eq_true, decide_eq_true_eq] at h
  obtain ⟨h1, h2⟩ := h
  have h1' : 48 ≤ c.toNat := h1
  have h2' : c.toNat ≤ 57 := h2
  rw [isNumericChar, List.any_eq_true]
  refine ⟨(48, 57), by simp [numericRanges], ?_⟩
  simp only [Bool.and_eq_true, decide_eq_true_eq]
  exact ⟨h1', h2'⟩

/-- Spelling out `fromChars` on an input starting with a digit run
followed by `sep`: the leading non-numeric run is empty. -/
theorem fromChars_digit_head (a : List Char) (r : List Char)
    (ha : a ≠ []) (had : ∀ x ∈ a, isNumericChar x = true) :
    (match splitLeading (fun c => !isNumericChar c) (a ++ r) with
      | some (_, rest) => rest
      | none => []) = a ++ r := by
  obtain ⟨a0, a', rfl⟩ := List.exists_cons_of_ne_nil ha
  have h0 : (fun c => !isNumericChar c) a0 = false := by
    simp [had a0 (by simp)]
  have := splitLeading_append (fun c => !isNumericChar c) [] a0 (a' ++ r)
    (by simp) h0
  simp only [List.nil_append] at this
  simp [this]

theorem splitOnceAt_digit_run (c suffix : List Char)
    (hcd : ∀ x ∈ c, isNumericChar x = true)
    (hs : ∀ x ∈ suffix.head?, isNumericChar x = false) :
    (match splitOnceAt (fun x => !isNumericChar x) (c ++ suffix) with
      | some p => p
      | none => (c ++ suffix, [])).1 = c := by
  cases suffix with
  | nil =>
    have hany : (c ++ ([] : List Char)).any (fun x => !isNumericChar x) = false := by
      rw [List.any_eq_false]
      intro x hx
      simp only [List.append_nil] at hx
      simp [hcd x hx]
    have hnone : splitOnceAt (fun x => !isNumericChar x) (c ++ []) = none := by
      unfold splitOnceAt
      rw [hany]
      simp
    rw [hnone]
    simp
  | cons u suf =>
    have hu : isNumericChar u = false := hs u (by simp)
    have hany : (c ++ u :: suf).any (fun x => !isNumericChar x) = true := by
      rw [List.any_eq_true]
      exact ⟨u, by simp, by simp [hu]⟩
    have htd := takeWhile_dropWhile_append (fun x => isNumericChar x) c (u :: suf)
      hcd (by intro x hx; simp only [List.head?_cons, Option.mem_def,
        Option.some.injEq] at hx; exact hx ▸ hu)
    have hsome : splitOnceAt (fun x => !isNumericChar x) (c ++ u :: suf)
        = some (c, ((c ++ u :: suf).dropWhile (fun x => isNumericChar x)).tail) := by
      unfold splitOnceAt
      rw [hany]
      simp only [Bool.not_not, if_true]
      rw [htd.1]
    rw [hsome]

theorem fromChars_three_groups (a b c suffix : List Char)
    (ha : a ≠ []) (had : ∀ x ∈ a, x.isDigit = true)
    (hb : b ≠ []) (hbd : ∀ x ∈ b, x.isDigit = true)
    (hc : c ≠ []) (hcd : ∀ x ∈ c, x.isDigit = true)
    (hs : ∀ x ∈ suffix.head?, isNumericChar x = false)
    (hma : digitsVal a < 4294967296) (hmb : digitsVal b < 4294967296)
    (hmc : digitsVal c < 4294967296) :
    fromChars (a ++ '.' :: (b ++ '.' :: (c ++ suffix)))
      = .ok ⟨digitsVal a, digitsVal b, digitsVal c⟩ := by
  have hadN : ∀ x ∈ a, isNumericChar x = true :=
    fun x hx => isNumericChar_of_isDigit x (had x hx)
  have hbdN : ∀ x ∈ b, isNumericChar x = true :=
    fun x hx => isNumericChar_of_isDigit x (hbd x hx)
  have hcdN : ∀ x ∈ c, isNumericChar x = true :=
    fun x hx => isNumericChar_of_isDigit x (hcd x hx)
  have hne : (a ++ '.' :: (b ++ '.' :: (c ++ suffix))).isEmpty = false := by
    simp
  have h1 := fromChars_digit_head a ('.' :: (b ++ '.' :: (c ++ suffix))) ha hadN
  have h2 : splitLeading isNumericChar (a ++ '.' :: (b ++ '.' :: (c ++ suffix)))
      = some (a, '.' :: (b ++ '.' :: (c ++ suffix))) :=
    splitLeading_append _ a '.' _ hadN (by decide)
  have h3 : splitLeading isNumericChar (b ++ '.' :: (c ++ suffix))
      = some (b, '.' :: (c ++ suffix)) :=
    splitLeading_append _ b '.' _ hbdN (by decide)
  have hpa := parseU32_digits a ha had hma
  have hpb := parseU32_digits b hb hbd hmb
  have hpc := parseU32_digits c hc hcd hmc
  have h4 := splitOnceAt_digit_run c suffix hcdN hs
  rw [fromChars, if_neg (by simp [hne])]
  rw [h1]
  simp only [h2, h3, hpa, hpb, hpc, h4]

theorem fromChars_major_only (a suffix : List Char)
    (ha : a ≠ []) (had : ∀ x ∈ a, x.isDigit = true)
    (hs : ∀ x ∈ suffix.head?, isNumericChar x = false)
    (hdot : suffix.head? ≠ some '.')
    (hma : digitsVal a < 4294967296) :
    fromChars (a ++ suffix) = .ok ⟨digitsVal a, 0, 0⟩ := by
  have hadN : ∀ x ∈ a, isNumericChar x = true :=
    fun x hx => isNumericChar_of_isDigit x (had x hx)
  have hpa := parseU32_digits a ha had hma
  have h1 := fromChars_digit_head a suffix ha hadN
  cases suffix with
  | nil =>
    have h2 : splitLeading isNumericChar a = none := splitLeading_all _ a hadN
    rw [fromChars, if_neg (by simp [ha])]
    rw [h1]
    simp only [List.append_nil, h2, hpa]
  | cons u suf =>
    have hu : isNumericChar u = false := hs u (by simp)
    have hu' : u ≠ '.' := by
      intro h
      exact hdot (by simp [h])
    have h2 : splitLeading isNumericChar (a ++ u :: suf) = some (a, u :: suf) :=
      splitLeading_append _ a u suf hadN hu
    rw [fromChars, if_neg (by simp [ha])]
    rw [h1]
    simp only [h2, hpa]
    split
    next rest2 heq =>
      injection heq with hh _
      exact absurd hh hu'
    next => rfl

theorem fromChars_minor_only (a b suffix : List Char)
    (ha : a ≠ []) (had : ∀ x ∈ a, x.isDigit = true)
    (hb : b ≠ []) (hbd : ∀ x ∈ b, x.isDigit = true)
    (hs : ∀ x ∈ suffix.head?, isNumericChar x = false)
    (hdot : suffix.head? ≠ some '.')
    (hma : digitsVal a < 4294967296) (hmb : digitsVal b < 4294967296) :
    fromChars (a ++ '.' :: (b ++ suffix)) = .ok ⟨digitsVal a, digitsVal b, 0⟩ := by
  have hadN : ∀ x ∈ a, isNumericChar x = true :=
    fun x hx => isNumericChar_of_isDigit x (had x hx)
  have hbdN : ∀ x ∈ b, isNumericChar x = true :=
    fun x hx => isNumericChar_of_isDigit x (hbd x hx)
  have hpa := parseU32_digits a ha had hma
  have hpb := parseU32_digits b hb hbd hmb
  cases suffix with
  | nil =>
    rw [List.append_nil]
    have h1 := fromChars_digit_head a ('.' :: b) ha hadN
    have h2 : splitLeading isNumericChar (a ++ '.' :: b) = some (a, '.' :: b) :=
      splitLeading_append _ a '.' b hadN (by decide)
    have h3 : splitLeading isNumericChar b = none := splitLeading_all _ b hbdN
    rw [fromChars, if_neg (by simp [ha])]
    rw [h1]
    simp only [h2, h3, hpa, hpb]
  | cons u suf =>
    have h1 := fromChars_digit_head a ('.' :: (b ++ u :: suf)) ha hadN
    have h2 : splitLeading isNumericChar (a ++ '.' :: (b ++ u :: suf))
        = some (a, '.' :: (b ++ u :: suf)) :=
      splitLeading_append _ a '.' _ hadN (by decide)
    have hu : isNumericChar u = false := hs u (by simp)
    have hu' : u ≠ '.' := by
      intro h
      exact hdot (by simp [h])
    have h3 : splitLeading isNumericChar (b ++ u :: suf) = some (b, u :: suf) :=
      splitLeading_append _ b u suf hbdN hu
    rw [fromChars, if_neg (by simp [ha])]
    rw [h1]
    simp only [h2, h3, hpa, hpb]
    split
    next rest3 heq =>
      injection heq with hh _
      exact absurd hh hu'
    next => rfl

theorem fromChars_dot_no_digits (a b suffix : List Char)
    (ha : a ≠ []) (had : ∀ x ∈ a, x.isDigit = true)
    (hb : b ≠ []) (hbd : ∀ x ∈ b, x.isDigit = true)
    (hs : ∀ x ∈ suffix.head?, isNumericChar x = false)
    (hma : digitsVal a < 4294967296) (hmb : digitsVal b < 4294967296) :
    fromChars (a ++ '.' :: (b ++ '.' :: suffix)) = .error () := by
  have hadN : ∀ x ∈ a, isNumericChar x = true :=
    fun x hx => isNumericChar_of_isDigit x (had x hx)
  have hbdN : ∀ x ∈ b, isNumericChar x = true :=
    fun x hx => isNumericChar_of_isDigit x (hbd x hx)
  have hpa := parseU32_digits a ha had hma
  have hpb := parseU32_digits b hb hbd hmb
  have h1 := fromChars_digit_head a ('.' :: (b ++ '.' :: suffix)) ha hadN
  have h2 : splitLeading isNumericChar (a ++ '.' :: (b ++ '.' :: suffix))
      = some (a, '.' :: (b ++ '.' :: suffix)) :=
    splitLeading_append _ a '.' _ hadN (by decide)
  have h3 : splitLeading isNumericChar (b ++ '.' :: suffix)
      = some (b, '.' :: suffix) :=
    splitLeading_append _ b '.' _ hbdN (by decide)
  cases suffix with
  | nil =>
    have h4 : splitOnceAt (fun x => !isNumericChar x) [] = none := by
      simp [splitOnceAt]
    rw [fromChars, if_neg (by simp [ha])]
    rw [h1]
    simp only [h2, h3, hpa, hpb, h4]
    rfl
  | cons u suf =>
    have hu : isNumericChar u = false := hs u (by simp)
    have hany : (u :: suf).any (fun x => !isNumericChar x) = true := by
      rw [List.any_eq_true]
      exact ⟨u, by simp, by simp [hu]⟩
    have h4 : splitOnceAt (fun x => !isNumericChar x) (u :: suf)
        = some ([], ((u :: suf).dropWhile (fun x => isNumericChar x)).tail) := by
      unfold splitOnceAt
      rw [hany]
      simp only [Bool.not_not, if_true]
      rw [List.takeWhile_cons]
      simp [hu]
    rw [fromChars, if_neg (by simp [ha])]
    rw [h1]
    simp only [h2, h3, hpa, hpb, h4]
    rfl

/-- **C3**: for every string that begins with a digit and has the shape
`M.N.P…` — ASCII digit runs `M`, `N`, `P` separated by single dots,
followed by any trailing content that does not begin with a numeric
character — parsing returns exactly `{major := M, minor := N,
patch := P}` (components read as decimal values, which must fit the
source's `u32` fields), and the trailing content is ignored.  The
boundary hypothesis on the trailing content uses the source's
`char::is_numeric` (Unicode numerics included): trailing content headed
by a non-ASCII numeral such as `'٣'` would extend the run `P` in the
source and make `u32::from_str` fail, so it is not part of the claimed
shape (see the examples above). -/
theorem fromStr_three_groups (a b c suffix : List Char)
    (ha : a ≠ []) (had : ∀ x ∈ a, x.isDigit = true)
    (hb : b ≠ []) (hbd : ∀ x ∈ b, x.isDigit = true)
    (hc : c ≠ []) (hcd : ∀ x ∈ c, x.isDigit = true)
    (hs : ∀ x ∈ suffix.head?, isNumericChar x = false)
    (hma : digitsVal a < 4294967296) (hmb : digitsVal b < 4294967296)
    (hmc : digitsVal c < 4294967296) :
    SemanticVersion.fromStr (String.mk (a ++ '.' :: (b ++ '.' :: (c ++ suffix))))
      = .ok ⟨digitsVal a, digitsVal b, digitsVal c⟩ :=
  fromChars_three_groups a b c suffix ha had hb hbd hc hcd hs hma hmb hmc

theorem fromStr_three_groups_witness :
    SemanticVersion.fromStr (String.mk ['1', '.', '2', '0', '.', '3', 'F', 'a', 'b'])
      = .ok ⟨1, 20, 3⟩ := by
  have h := fromStr_three_groups ['1'] ['2', '0'] ['3'] ['F', 'a', 'b']
    (by decide) (by decide) (by decide) (by decide) (by decide) (by decide)
    (by intro x hx; simp only [List.head?_cons, Option.mem_def,
      Option.some.injEq] at hx; subst hx; decide)
    (by decide) (by decide) (by decide)
  exact h

example : SemanticVersion.fromStr "1.20.0" = .ok ⟨1, 20, 0⟩ := rfl
example : SemanticVersion.fromStr "v10.19.15-1.20.0" = .ok ⟨10, 19, 15⟩ := rfl
example : SemanticVersion.fromStr "quilt--2.4.21" = .ok ⟨2, 4, 21⟩ := rfl
example : SemanticVersion.fromStr "2.1.0+1.20.1" = .ok ⟨2, 1, 0⟩ := rfl
example : SemanticVersion.fromStr "" = .error () := rfl

/-! The Unicode-numeral boundary of `char::is_numeric`: a non-ASCII
numeral (`'٣'` U+0663 category Nd, `'¾'` U+00BE category No) counts as
numeric for run segmentation but is rejected by `u32::from_str`, so it
extends the digit run and fails the parse — matching the source, which
errs on these inputs rather than ignoring the trailing numeral. -/

example : isNumericChar '٣' = true := by decide

example : isNumericChar '¾' = true := by decide

example : SemanticVersion.fromStr "1٣" = .error () := rfl

example : SemanticVersion.fromStr "1.2.3٣" = .error () := rfl

example : SemanticVersion.fromStr "1.2¾x" = .error () := rfl

/-- **C4, counterexample**: the claim says a `.` after the minor digit
run with no digit run following it still parses, `"1.2."` yielding
`{1, 2, 0}`; the code instead feeds the empty string to `u32::from_str`
and fails, so `parse("1.2.")` is an error. -/
theorem fromStr_trailing_dot_errors :
    SemanticVersion.fromStr "1.2." = .error () ∧
    SemanticVersion.fromStr "1.2." ≠ .ok ⟨1, 2, 0⟩ := by
  refine ⟨rfl, ?_⟩
  intro h
  rw [show SemanticVersion.fromStr "1.2." = .error () from rfl] at h
  exact Except.noConfusion h

/-- **C4 (amended)**: when a major component parses, (1) if no `.`
immediately follows the major digit run, parsing succeeds with
`minor = 0` and `patch = 0`, the remainder treated as suffix; (2) if a `.` and a
minor digit run follow, but no further `.` follows that run, parsing
succeeds with `patch = 0`; but (3) — contrary to the
original claim — a `.` that is not followed by a digit run is a parse
error: inputs such as `"1.2."` yield `Err(())`, not `{1, 2, 0}`.  As in
C3, the runs are ASCII digit runs and "the remainder" must not begin
with a numeric character in the source's `char::is_numeric` sense: a
remainder headed by a Unicode numeral extends the run and makes
`u32::from_str` fail (see the examples above). -/
theorem fromStr_missing_components :
    (∀ a suffix : List Char, a ≠ [] → (∀ x ∈ a, x.isDigit = true) →
      (∀ x ∈ suffix.head?, isNumericChar x = false) →
      suffix.head? ≠ some '.' → digitsVal a < 4294967296 →
      SemanticVersion.fromStr (String.mk (a ++ suffix))
        = .ok ⟨digitsVal a, 0, 0⟩) ∧
    (∀ a b suffix : List Char, a ≠ [] → (∀ x ∈ a, x.isDigit = true) →
      b ≠ [] → (∀ x ∈ b, x.isDigit = true) →
      (∀ x ∈ suffix.head?, isNumericChar x = false) →
      suffix.head? ≠ some '.' →
      digitsVal a < 4294967296 → digitsVal b < 4294967296 →
      SemanticVersion.fromStr (String.mk (a ++ '.' :: (b ++ suffix)))
        = .ok ⟨digitsVal a, digitsVal b, 0⟩) ∧
    (∀ a b suffix : List Char, a ≠ [] → (∀ x ∈ a, x.isDigit = true) →
      b ≠ [] → (∀ x ∈ b, x.isDigit = true) →
      (∀ x ∈ suffix.head?, isNumericChar x = false) →
      digitsVal a < 4294967296 → digitsVal b < 4294967296 →
      SemanticVersion.fromStr (String.mk (a ++ '.' :: (b ++ '.' :: suffix)))
        = .error ()) := by
  refine ⟨?_, ?_, ?_⟩
  · intro a suffix ha had hs hdot hma
    exact fromChars_major_only a suffix ha had hs hdot hma
  · intro a b suffix ha had hb hbd hs hdot hma hmb
    exact fromChars_minor_only a b suffix ha had hb hbd hs hdot hma hmb
  · intro a b suffix ha had hb hbd hs hma hmb
    exact fromChars_dot_no_digits a b suffix ha had hb hbd hs hma hmb

theorem fromStr_missing_components_witness :
    SemanticVersion.fromStr (String.mk ['1', 'x']) = .ok ⟨1, 0, 0⟩ ∧
    SemanticVersion.fromStr (String.mk ['1', '.', '2', 'x']) = .ok ⟨1, 2, 0⟩ ∧
    SemanticVersion.fromStr (String.mk ['1', '.', '2', '.']) = .error () := by
  have hx : ∀ x ∈ (['x'] : List Char).head?, isNumericChar x = false := by
    intro x hx
    simp only [List.head?_cons, Option.mem_def, Option.some.injEq] at hx
    subst hx
    decide
  refine ⟨?_, ?_, ?_⟩
  · exact fromStr_missing_components.1 ['1'] ['x'] (by decide) (by decide) hx
      (by decide) (by decide)
  · exact fromStr_missing_components.2.1 ['1'] ['2'] ['x'] (by decide)
      (by decide) (by decide) (by decide) hx (by decide) (by decide) (by decide)
  · exact fromStr_missing_components.2.2 ['1'] ['2'] [] (by decide) (by decide)
      (by decide) (by decide) (by intro x hx; simp at hx) (by decide) (by decide)

/-! ## Catalog index theorems -/

/-- **C10**: `get_projects` is not total: any requested key at or past
the current length of the `global_projects` store (a stale key from an
earlier session) makes the unchecked index `all_projects[project.0]`
panic (modelled by `none`) instead of returning an error or skipping. -/
theorem getProjects_panics_on_stale_key (store : List Project)
    (keys : List Nat) (h : ∃ k ∈ keys, store.length ≤ k) :
    getProjects store keys = none := by
  induction keys with
  | nil => simp at h
  | cons k ks ih =>
    obtain ⟨k0, hk0, hlen⟩ := h
    rw [getProjects]
    rcases List.mem_cons.mp hk0 with rfl | hk0'
    · rw [List.get?_eq_none.mpr hlen]
    · cases hget : store.get? k with
      | none => rfl
      | some p => rw [ih ⟨k0, hk0', hlen⟩]; rfl

theorem getProjects_panics_on_stale_key_witness :
    getProjects [projA] [0, 1] = none :=
  getProjects_panics_on_stale_key [projA] [0, 1]
    ⟨1, by decide, by decide⟩

/-- **C6, counterexample**: the shared `global_projects` store is *not*
deduplicated: fetching project `"a"` twice in a row appends two
identical entries and returns two different keys — the second request
for an already-stored project does not return its existing key. -/
theorem getProject_appends_duplicate :
    getProject demoCatalog.fetchProject [] "a" = .ok ([projA], 0) ∧
    getProject demoCatalog.fetchProject [projA] "a" = .ok ([projA, projA], 1) ∧
    projA ∈ [projA] ∧ (1 : Nat) ≠ 0 := by
  refine ⟨rfl, rfl, by decide, by decide⟩

/-- **C6 (amended)**: the Catalog Index is append-only with stable,
monotonically fresh keys, but it performs no deduplication: every
successful `get_project` call appends a new entry (its key is the old
store length) even when the same project is already stored, so the
entry's multiplicity grows; deduplication of work happens only in the
resolver's `downloaded` set, not in the store. -/
theorem getProject_always_appends (fetch : String → Except ApiErr Project)
    (st : List Project) (id : String) (p : Project)
    (hfetch : fetch id = .ok p) (hmem : p ∈ st) :
    getProject fetch st id = .ok (st ++ [p], st.length) ∧
    (st ++ [p]).count p = st.count p + 1 ∧
    2 ≤ (st ++ [p]).count p := by
  have hcnt : (st ++ [p]).count p = st.count p + 1 := by
    rw [List.count_append]
    simp
  refine ⟨?_, hcnt, ?_⟩
  · rw [getProject, hfetch]
  · have : 0 < st.count p := List.count_pos_iff.mpr hmem
    omega

theorem getProject_always_appends_witness :
    getProject demoCatalog.fetchProject [projA] "a"
      = .ok ([projA] ++ [projA], 1) ∧
    ([projA] ++ [projA]).count projA = [projA].count projA + 1 ∧
    2 ≤ ([projA] ++ [projA]).count projA :=
  getProject_always_appends demoCatalog.fetchProject [projA] "a" projA
    (by rfl) (by decide)

/-! ## Primary-file selection and best-release selection -/

/-- **C7**: for every chosen release's file list: a file flagged primary
is selected when one exists; a non-empty list with no primary-flagged
file selects the first file and is never an error; and an empty file
list is a hard failure (the modelled `unwrap` panic, `none`), never a
silent skip. -/
theorem pickFile_spec (files : List RFile) :
    (pickFile files = none ↔ files = []) ∧
    ((∀ f ∈ files, f.primary = false) → pickFile files = files.head?) ∧
    ((∃ f ∈ files, f.primary = true) →
      ∃ g ∈ files, g.primary = true ∧ pickFile files = some g) := by
  cases hfind : files.find? (fun f => f.primary) with
  | none =>
    have hnone : ∀ f ∈ files, f.primary = false := by
      intro f hf
      have := List.find?_eq_none.mp hfind f hf
      simpa using this
    refine ⟨?_, ?_, ?_⟩
    · rw [pickFile, hfind]
      cases files <;> simp
    · intro _
      rw [pickFile, hfind]
    · rintro ⟨f, hf, hp⟩
      exact absurd hp (by simp [hnone f hf])
  | some f =>
    have hmem : f ∈ files := List.mem_of_find?_eq_some hfind
    have hp : f.primary = true := by
      have := List.find?_some hfind
      simpa using this
    refine ⟨?_, ?_, ?_⟩
    · rw [pickFile, hfind]
      simp
      intro h
      subst h
      simp at hmem
    · intro hall
      exact absurd hp (by simp [hall f hmem])
    · intro _
      exact ⟨f, hmem, hp, by rw [pickFile, hfind]⟩

theorem pickFile_spec_witness :
    pickFile [bJar, aJar] = [bJar, aJar].head? ∧
    pickFile [bJar, aJar] = some bJar := by
  have h := (pickFile_spec [bJar, aJar]).2.1 (by decide)
  exact ⟨h, by rw [h]; rfl⟩

/-! ## Resolver theorems -/

/-- **C8**: a project whose release query (filtered by the fixed
loaders and game version) comes back empty is skipped without failing:
the loop continues with the state otherwise untouched — the project id
is not added to `downloaded`, no archive entry is written, the store is
unchanged, and no dependency edge of the project is pushed (no phantom
edges).  Because the skip leaves no trace, a later pop of another key
for the same project repeats the query (nothing is memoized). -/
theorem loopIter_skips_empty_releases (cat : Catalog) (gv : String)
    (rv : SemanticVersion) (s : ResolveState) (key ident : Nat)
    (p : Project) (hget : s.globalProjects.get? key = some p)
    (hdl : p.id ∉ s.downloaded)
    (hv : cat.fetchVersions p.slug = .ok []) :
    loopIter cat gv rv s key ident = .ok s := by
  rw [loopIter, hget]
  simp only [hdl, if_false, hv]
  rfl

theorem loopIter_skips_empty_releases_witness :
    loopIter demoCatalog "1.20.1" ⟨1, 20, 1⟩ ⟨[projC], [], [], []⟩ 0 0
      = .ok ⟨[projC], [], [], []⟩ :=
  loopIter_skips_empty_releases demoCatalog "1.20.1" ⟨1, 20, 1⟩
    ⟨[projC], [], [], []⟩ 0 0 projC rfl (by decide) rfl

theorem maxByKeyLast_foldl_spec (f : α → Nat) :
    ∀ (xs : List α) (x : α),
      (xs.foldl (fun m y => if f m ≤ f y then y else m) x) ∈ x :: xs ∧
      ∀ y ∈ x :: xs,
        f y ≤ f (xs.foldl (fun m y => if f m ≤ f y then y else m) x) := by
  intro xs
  induction xs with
  | nil => simp
  | cons z zs ih =>
    intro x
    simp only [List.foldl_cons]
    set w := if f x ≤ f z then z else x with hw
    have hwmem : w = x ∨ w = z := by rw [hw]; split <;> simp
    have hwx : f x ≤ f w := by rw [hw]; split <;> omega
    have hwz : f z ≤ f w := by rw [hw]; split <;> omega
    obtain ⟨ihm, ihb⟩ := ih w
    have hwb : f w ≤ f (zs.foldl (fun m y => if f m ≤ f y then y else m) w) :=
      ihb w (by simp)
    constructor
    · rcases List.mem_cons.mp ihm with h | h
      · rw [h]
        rcases hwmem with h' | h' <;> rw [h'] <;> simp
      · simp [h]
    · intro y hy
      rcases List.mem_cons.mp hy with rfl | hy'
      · exact le_trans hwx hwb
      · rcases List.mem_cons.mp hy' with rfl | hy''
        · exact le_trans hwz hwb
        · exact le_trans (ihb y (by simp [hy''])) (le_refl _)

theorem maxByKeyLast_spec (f : α → Nat) (l : List α) (h : l ≠ []) :
    ∃ m, maxByKeyLast f l = some m ∧ m ∈ l ∧ ∀ y ∈ l, f y ≤ f m := by
  cases l with
  | nil => exact absurd rfl h
  | cons x xs =>
    obtain ⟨hm, hb⟩ := maxByKeyLast_foldl_spec f xs x
    exact ⟨_, rfl, hm, hb⟩

theorem maxByKeyLast_map_spec (g : Release → SemanticVersion)
    (versions : List Release) (h : versions ≠ []) :
    ∃ r sv,
      maxByKeyLast (fun p => p.1.date_published)
        (versions.map (fun v => (v, g v))) = some (r, sv) ∧
      r ∈ versions ∧ ∀ v ∈ versions, v.date_published ≤ r.date_published := by
  have hmap : versions.map (fun v => (v, g v)) ≠ [] := by simp [h]
  obtain ⟨m, hsome, hmem, hb⟩ := maxByKeyLast_spec _ _ hmap
  obtain ⟨v0, hv0, hveq⟩ := List.mem_map.mp hmem
  refine ⟨m.1, m.2, by simpa using hsome, ?_, ?_⟩
  · rw [← hveq]
    exact hv0
  · intro v hv
    have := hb (v, g v) (List.mem_map_of_mem _ hv)
    simpa using this

/-- The best-release selection always returns the release with the
maximal publish timestamp among the (non-empty) candidates. -/
theorem chooseLatest_spec (gv : String) (rv : SemanticVersion)
    (versions : List Release) (h : versions ≠ []) :
    ∃ r sv, chooseLatest gv rv versions = some (r, sv) ∧ r ∈ versions ∧
      ∀ v ∈ versions, v.date_published ≤ r.date_published :=
  maxByKeyLast_map_spec
    (fun v =>
      match SemanticVersion.fromStr
          ((v.version_number.replace gv "").replace
            (toString rv.major ++ "." ++ toString rv.minor) "") with
      | .ok sv => sv
      | .error _ => ⟨0, 0, 0⟩)
    versions h

/-- **C2**: the resolver's best-release selection takes the candidate
with the latest publish timestamp (`max_by_key` on `date_published`),
not the maximum version-label string nor the maximum parsed semantic
version: on a list whose older release carries the larger label
(`"9.9.9"`, parsing to `9.9.9`) and whose newer release carries the
smaller label (`"1.0.0"`), the newer one is selected. -/
theorem chooseLatest_max_date :
    (∀ (gv : String) (rv : SemanticVersion) (versions : List Release),
      versions ≠ [] →
      ∃ r sv, chooseLatest gv rv versions = some (r, sv) ∧ r ∈ versions ∧
        ∀ v ∈ versions, v.date_published ≤ r.date_published) ∧
    (∃ sv, chooseLatest "1.20.1" ⟨1, 20, 1⟩ [relOldLabelBig, relNewLabelSmall]
        = some (relNewLabelSmall, sv)) ∧
    relOldLabelBig.date_published < relNewLabelSmall.date_published ∧
    SemanticVersion.fromStr relOldLabelBig.version_number = .ok ⟨9, 9, 9⟩ ∧
    SemanticVersion.fromStr relNewLabelSmall.version_number = .ok ⟨1, 0, 0⟩ :=
  ⟨chooseLatest_spec, ⟨_, rfl⟩, by decide, rfl, rfl⟩

theorem chooseLatest_max_date_witness :
    ∃ r sv, chooseLatest "1.20.1" ⟨1, 20, 1⟩ [relA] = some (r, sv) ∧
      r ∈ [relA] ∧ ∀ v ∈ [relA], v.date_published ≤ r.date_published :=
  chooseLatest_max_date.1 "1.20.1" ⟨1, 20, 1⟩ [relA] (by decide)

/-! ## Archive-path theorems -/

theorem decDigits_ne_nil (n : Nat) : decDigits n ≠ [] := by
  rw [decDigits]
  split <;> simp

theorem decDigit_inj_lt : ∀ d1 < 10, ∀ d2 < 10,
    decDigit d1 = decDigit d2 → d1 = d2 := by decide

theorem decDigits_eq (n : Nat) : decDigits n =
    if n < 10 then [decDigit n]
    else decDigits (n / 10) ++ [decDigit (n % 10)] := by
  rw [decDigits]
  by_cases h : n < 10 <;> simp [h]

theorem decDigits_inj (n : Nat) : ∀ m, decDigits n = decDigits m → n = m := by
  induction n using Nat.strong_induction_on with
  | _ n ih =>
    intro m h
    rw [decDigits_eq n, decDigits_eq m] at h
    by_cases hn : n < 10 <;> by_cases hm : m < 10
    · rw [if_pos hn, if_pos hm] at h
      injection h with h1 _
      exact decDigit_inj_lt n hn m hm h1
    · rw [if_pos hn, if_neg hm] at h
      have hlen := congrArg List.length h
      have hpre := decDigits_ne_nil (m / 10)
      cases hd : decDigits (m / 10) with
      | nil => exact absurd hd hpre
      | cons u us => rw [hd] at hlen; simp at hlen
    · rw [if_neg hn, if_pos hm] at h
      have hlen := congrArg List.length h
      have hpre := decDigits_ne_nil (n / 10)
      cases hd : decDigits (n / 10) with
      | nil => exact absurd hd hpre
      | cons u us => rw [hd] at hlen; simp at hlen
    · rw [if_neg hn, if_neg hm] at h
      obtain ⟨hinit, hlast⟩ := List.append_inj' h rfl
      injection hlast with hl _
      have hmod : n % 10 = m % 10 :=
        decDigit_inj_lt _ (Nat.mod_lt _ (by omega)) _ (Nat.mod_lt _ (by omega)) hl
      have hdiv : n / 10 = m / 10 :=
        ih (n / 10) (Nat.div_lt_self (by omega) (by omega)) (m / 10) hinit
      omega

theorem zipFileName_inj_time (name : String) (t1 t2 : Nat)
    (h : zipFileName name t1 = zipFileName name t2) : t1 = t2 := by
  have hd := congrArg String.data h
  simp only [zipFileName, String.data_append, List.append_assoc] at hd
  have h1 := List.append_cancel_left hd
  injection h1 with _ h2
  simp only [List.append_eq, List.nil_append] at h2
  have h3 := List.append_cancel_right h2
  exact decDigits_inj t1 t2 h3

/-- **C9, counterexample**: the claim says two concurrent bundle
requests for the same collection name *never* produce the same archive
path; but the path is a pure function of the collection name and the
millisecond timestamp alone, so two requests whose clock reads land in
the same millisecond (here both at `1700000000000`) produce the
identical path — nothing in the code guarantees distinctness. -/
theorem zipFileName_collision :
    zipFileName "pack" 1700000000000 = zipFileName "pack" 1700000000000 ∧
    zipUrl "pack" 1700000000000 = zipUrl "pack" 1700000000000 ∧
    ¬ (∀ t1 t2 : Nat, zipFileName "pack" t1 ≠ zipFileName "pack" t2) :=
  ⟨rfl, rfl, fun h => h 1700000000000 1700000000000 rfl⟩

/-- **C9 (amended)**: the archive file name and the public retrieval
path derived from the collection name and the millisecond creation
timestamp are unique *provided the two requests observe distinct
millisecond timestamps*: for a fixed collection name the derivation is
injective in the timestamp, so distinct timestamps always give distinct
paths, and requests sharing the same millisecond (and name) collide. -/
theorem zipPath_unique_for_distinct_timestamps :
    ∀ (name : String) (t1 t2 : Nat), t1 ≠ t2 →
      zipFileName name t1 ≠ zipFileName name t2 ∧
      zipUrl name t1 ≠ zipUrl name t2 := by
  intro name t1 t2 hne
  have hf : zipFileName name t1 ≠ zipFileName name t2 :=
    fun h => hne (zipFileName_inj_time name t1 t2 h)
  refine ⟨hf, fun h => hf ?_⟩
  have hd := congrArg String.data h
  simp only [zipUrl, String.data_append] at hd
  have h1 := List.append_cancel_left hd
  cases hu1 : zipFileName name t1 with
  | mk d1 =>
    cases hu2 : zipFileName name t2 with
    | mk d2 =>
      rw [hu1, hu2] at h1
      exact congrArg String.mk h1

theorem zipPath_unique_witness :
    zipFileName "pack" 1700000000000 ≠ zipFileName "pack" 1700000000001 ∧
    zipUrl "pack" 1700000000000 ≠ zipUrl "pack" 1700000000001 :=
  zipPath_unique_for_distinct_timestamps "pack" 1700000000000 1700000000001
    (by decide)

/-! ## Compatibility-matrix theorems -/

theorem memFirst_cons (v' : SemanticVersion) (s : List Nat)
    (rest : List (SemanticVersion × List Nat)) (v : SemanticVersion)
    (k : Nat) :
    memFirst ((v', s) :: rest) v k
      = if v' = v then decide (k ∈ s) else memFirst rest v k := by
  by_cases h : v' = v
  · subst h
    rw [memFirst, List.find?_cons_of_pos _ (by simp), if_pos rfl]
  · rw [memFirst, List.find?_cons_of_neg _ (by simp [h]), if_neg h]
    rfl

theorem sumSizes_cons (e : SemanticVersion × List Nat)
    (rest : List (SemanticVersion × List Nat)) :
    sumSizes (e :: rest) = e.2.length + sumSizes rest := by
  simp [sumSizes]

theorem sumSizes_groupInsert (v : SemanticVersion) (k : Nat) :
    ∀ g, sumSizes (groupInsert g v k)
      = sumSizes g + (if memFirst g v k then 0 else 1) := by
  intro g
  induction g with
  | nil => simp [groupInsert, sumSizes, memFirst]
  | cons e rest ih =>
    obtain ⟨v', s⟩ := e
    by_cases hv : v' = v
    · subst hv
      by_cases hk : k ∈ s <;>
        simp [groupInsert, memFirst_cons, sumSizes_cons, hk] <;> omega
    · simp [groupInsert, hv, memFirst_cons, sumSizes_cons, ih]
      omega

theorem memFirst_groupInsert (v : SemanticVersion) (k : Nat)
    (v' : SemanticVersion) (k' : Nat) :
    ∀ g, (memFirst (groupInsert g v k) v' k' = true
      ↔ (memFirst g v' k' = true ∨ (v' = v ∧ k' = k))) := by
  intro g
  induction g with
  | nil =>
    by_cases h1 : v = v' <;>
      simp [groupInsert, memFirst_cons, memFirst, h1] <;> tauto
  | cons e rest ih =>
    obtain ⟨v0, s0⟩ := e
    by_cases h0 : v0 = v <;> by_cases h1 : v0 = v'
    · subst h0
      subst h1
      by_cases hk : k ∈ s0
      · simp [groupInsert, memFirst_cons, hk]
        rintro rfl
        exact hk
      · simp [groupInsert, memFirst_cons, hk]
        tauto
    · subst h0
      simp [groupInsert, memFirst_cons, h1,
        (show ¬v' = v0 from fun h => h1 h.symm)]
    · subst h1
      simp [groupInsert, h0, memFirst_cons]
    · simp [groupInsert, h0, memFirst_cons, h1, ih]

theorem sdiff_insert_card_not_mem {α : Type} [DecidableEq α]
    (A seen : Finset α) (t : α) (ht : t ∉ seen) :
    (insert t A \ seen).card = (A \ insert t seen).card + 1 := by
  have hset : insert t A \ seen = insert t (A \ insert t seen) := by
    ext x
    simp only [Finset.mem_sdiff, Finset.mem_insert, not_or]
    constructor
    · rintro ⟨rfl | hx, hns⟩
      · exact Or.inl rfl
      · by_cases hxt : x = t
        · exact Or.inl hxt
        · exact Or.inr ⟨hx, hxt, hns⟩
    · rintro (rfl | ⟨hx, hxt, hns⟩)
      · exact ⟨Or.inl rfl, ht⟩
      · exact ⟨Or.inr hx, hns⟩
  rw [hset, Finset.card_insert_of_not_mem]
  simp [Finset.mem_sdiff]

theorem sdiff_insert_of_mem {α : Type} [DecidableEq α]
    (A seen : Finset α) (t : α) (ht : t ∈ seen) :
    insert t A \ seen = A \ seen := by
  ext x
  simp only [Finset.mem_sdiff, Finset.mem_insert]
  constructor
  · rintro ⟨rfl | hx, hns⟩
    · exact absurd ht hns
    · exact ⟨hx, hns⟩
  · rintro ⟨hx, hns⟩
    exact ⟨Or.inr hx, hns⟩

theorem foldl_groupInsert_spec (k : Nat) :
    ∀ (ts : List SemanticVersion) (g : List (SemanticVersion × List Nat))
      (seen : Finset SemanticVersion),
      (∀ v, memFirst g v k = true ↔ v ∈ seen) →
      sumSizes (ts.foldl (fun g v => groupInsert g v k) g)
          = sumSizes g + (ts.toFinset \ seen).card ∧
      (∀ v, memFirst (ts.foldl (fun g v => groupInsert g v k) g) v k = true
          ↔ v ∈ seen ∪ ts.toFinset) ∧
      (∀ v k', k' ≠ k →
        (memFirst (ts.foldl (fun g v => groupInsert g v k) g) v k' = true
          ↔ memFirst g v k' = true)) := by
  intro ts
  induction ts with
  | nil =>
    intro g seen hseen
    refine ⟨by simp, ?_, fun v k' _ => Iff.rfl⟩
    intro v
    simpa using hseen v
  | cons t ts ih =>
    intro g seen hseen
    have hseen1 : ∀ v, memFirst (groupInsert g t k) v k = true
        ↔ v ∈ insert t seen := by
      intro v
      rw [memFirst_groupInsert, hseen v, Finset.mem_insert]
      tauto
    obtain ⟨ihs, ihm, iho⟩ := ih (groupInsert g t k) (insert t seen) hseen1
    refine ⟨?_, ?_, ?_⟩
    · rw [List.foldl_cons, ihs, sumSizes_groupInsert]
      by_cases ht : t ∈ seen
      · rw [if_pos ((hseen t).mpr ht)]
        rw [List.toFinset_cons]
        rw [sdiff_insert_of_mem _ _ _ ht]
        have : insert t seen = seen := Finset.insert_eq_self.mpr ht
        rw [this]
        omega
      · rw [if_neg (by rw [hseen t]; simpa using ht)]
        rw [List.toFinset_cons]
        rw [sdiff_insert_card_not_mem _ _ _ ht]
        omega
    · intro v
      rw [List.foldl_cons, ihm v, List.toFinset_cons]
      rw [Finset.insert_union, Finset.union_insert]
    · intro v k' hk'
      rw [List.foldl_cons, iho v k' hk', memFirst_groupInsert]
      constructor
      · rintro (h | ⟨_, rfl⟩)
        · exact h
        · exact absurd rfl hk'
      · exact fun h => Or.inl h

theorem sumSizes_foldl_addProject :
    ∀ (ps : List (Nat × Project)) (g : List (SemanticVersion × List Nat))
      (done : List Nat),
      (ps.map Prod.fst).Nodup →
      (∀ kp ∈ ps, kp.1 ∉ done) →
      (∀ v k, memFirst g v k = true → k ∈ done) →
      sumSizes (ps.foldl (fun g kp => addProject g kp.1 kp.2) g)
        = sumSizes g
          + (ps.map (fun kp => (parsedVersions kp.2).toFinset.card)).sum := by
  intro ps
  induction ps with
  | nil =>
    intro g done _ _ _
    simp
  | cons kp ps ih =>
    obtain ⟨k, p⟩ := kp
    intro g done hnd hdisj hg
    have hfresh : ∀ v, memFirst g v k = true
        ↔ v ∈ (∅ : Finset SemanticVersion) := by
      intro v
      simp only [Finset.not_mem_empty, iff_false]
      intro h
      exact hdisj (k, p) (by simp) (hg v k h)
    obtain ⟨hsum, hmem, hoth⟩ :=
      foldl_groupInsert_spec k (parsedVersions p) g ∅ hfresh
    have hnd' : (ps.map Prod.fst).Nodup := (List.nodup_cons.mp (by simpa using hnd)).2
    have hhead : k ∉ ps.map Prod.fst := (List.nodup_cons.mp (by simpa using hnd)).1
    have hih := ih (addProject g k p) (k :: done) hnd' ?_ ?_
    · rw [List.foldl_cons]
      simp only []
      rw [hih]
      rw [show addProject g k p
          = (parsedVersions p).foldl (fun g v => groupInsert g v k) g from rfl]
      rw [hsum, Finset.sdiff_empty]
      simp only [List.map_cons, List.sum_cons]
      omega
    · intro kp' hkp'
      simp only [List.mem_cons, not_or]
      constructor
      · intro hkk
        exact hhead (hkk ▸ List.mem_map_of_mem Prod.fst hkp')
      · exact hdisj kp' (List.mem_cons_of_mem _ hkp')
    · intro v k'' hmf
      by_cases hkk : k'' = k
      · exact hkk ▸ List.mem_cons_self k done
      · have := (hoth v k'' hkk).mp (by
          rw [show addProject g k p
            = (parsedVersions p).foldl (fun g v => groupInsert g v k) g
            from rfl] at hmf
          exact hmf)
        exact List.mem_cons_of_mem _ (hg v k'' this)

/-- The sum of all group sizes equals the sum over the projects of the
number of *distinct* canonical versions among their parseable labels. -/
theorem sumSizes_availableVersions (ps : List (Nat × Project))
    (hnd : (ps.map Prod.fst).Nodup) :
    sumSizes (availableVersions ps)
      = (ps.map (fun kp => (parsedVersions kp.2).toFinset.card)).sum := by
  have h := sumSizes_foldl_addProject ps [] [] hnd (by simp)
    (by intro v k h; exact absurd h (by simp [memFirst]))
  simpa [availableVersions, sumSizes] using h

theorem toFinset_card_eq_length_iff (l : List SemanticVersion) :
    l.toFinset.card = l.length ↔ l.Nodup := by
  rw [List.card_toFinset]
  constructor
  · intro h
    exact List.dedup_eq_self.mp (List.Sublist.eq_of_length (List.dedup_sublist l) h)
  · intro h
    rw [List.dedup_eq_self.mpr h]

/-- **C5, counterexample**: the claim's inequality points the wrong way.
A single project declaring the two labels `"1.0.0"` and `"v1.0.0"`,
which canonicalize to the same triple, produces one group of size `1`,
while the number of (project, parseable-label) pairs is `2` — the sum
of group sizes is *smaller* than the pair count, not `≥` it. -/
theorem matrix_sum_counterexample :
    sumSizes (availableVersions [(0, projDup)]) = 1 ∧
    pairCount [(0, projDup)] = 2 ∧
    ¬ pairCount [(0, projDup)] ≤ sumSizes (availableVersions [(0, projDup)]) := by
  refine ⟨rfl, rfl, by decide⟩

/-- **C5 (amended)**: for every input set of projects (distinct keys),
the sum over all version groups of the group's membership count is less
than or equal to the number of (project, parseable-label) pairs, with
equality exactly when no project has two raw labels canonicalizing to
the same (major, minor, patch) triple. -/
theorem matrix_sum_le_pairs (ps : List (Nat × Project))
    (hnd : (ps.map Prod.fst).Nodup) :
    sumSizes (availableVersions ps) ≤ pairCount ps ∧
    (sumSizes (availableVersions ps) = pairCount ps ↔
      ∀ kp ∈ ps, (parsedVersions kp.2).Nodup) := by
  rw [sumSizes_availableVersions ps hnd, pairCount]
  clear hnd
  induction ps with
  | nil => simp
  | cons kp ps ih =>
    simp only [List.map_cons, List.sum_cons, List.mem_cons]
    obtain ⟨ihle, ihiff⟩ := ih
    have h1 : (parsedVersions kp.2).toFinset.card
        ≤ (parsedVersions kp.2).length := List.toFinset_card_le _
    constructor
    · omega
    · constructor
      · intro h
        have he1 : (parsedVersions kp.2).toFinset.card
            = (parsedVersions kp.2).length := by omega
        have he2 : (ps.map (fun kp => (parsedVersions kp.2).toFinset.card)).sum
            = (ps.map (fun kp => (parsedVersions kp.2).length)).sum := by omega
        intro kp' hkp'
        rcases hkp' with rfl | hkp'
        · exact (toFinset_card_eq_length_iff _).mp he1
        · exact (ihiff.mp he2) kp' hkp'
      · intro h
        have he1 := (toFinset_card_eq_length_iff _).mpr (h kp (Or.inl rfl))
        have he2 := ihiff.mpr (fun kp' h' => h kp' (Or.inr h'))
        omega

theorem matrix_sum_le_pairs_witness :
    sumSizes (availableVersions [(0, projDup)]) ≤ pairCount [(0, projDup)] ∧
    (sumSizes (availableVersions [(0, projDup)]) = pairCount [(0, projDup)] ↔
      ∀ kp ∈ [(0, projDup)], (parsedVersions kp.2).Nodup) :=
  matrix_sum_le_pairs [(0, projDup)] (by decide)

/-! ## Resolver termination and idempotence (C1 toolkit) -/

theorem processDeps_ok (cat : Catalog) (ident : Nat) (U : Finset String)
    (hFetch : ∀ id p, cat.fetchProject id = .ok p → p.id ∈ U) :
    ∀ (deps : List Dependency) (gp : List Project) (todo : List (Nat × Nat))
      (downloaded : List String) (gp' : List Project)
      (todo' : List (Nat × Nat)),
      processDeps cat ident deps gp todo downloaded = .ok (gp', todo') →
      (∀ p ∈ gp, p.id ∈ U) →
      (∀ p ∈ gp', p.id ∈ U) ∧ todo'.length ≤ todo.length + deps.length := by
  intro deps
  induction deps with
  | nil =>
    intro gp todo downloaded gp' todo' h hgp
    simp only [processDeps, Except.ok.injEq, Prod.mk.injEq] at h
    obtain ⟨h1, h2⟩ := h
    subst h1
    subst h2
    exact ⟨hgp, by omega⟩
  | cons dep deps ih =>
    intro gp todo downloaded gp' todo' h hgp
    cases hpid : dep.project_id with
    | none =>
      simp only [processDeps, hpid] at h
      exact absurd h (by simp)
    | some pid =>
      simp only [processDeps, hpid] at h
      by_cases hty : dep.dependency_type ≠ DependencyType.required
      · rw [if_pos hty] at h
        obtain ⟨hu, hlen⟩ := ih gp todo downloaded gp' todo' h hgp
        refine ⟨hu, ?_⟩
        simp only [List.length_cons]
        omega
      · rw [if_neg hty] at h
        by_cases hdl : pid ∈ downloaded
        · rw [if_pos hdl] at h
          obtain ⟨hu, hlen⟩ := ih gp todo downloaded gp' todo' h hgp
          refine ⟨hu, ?_⟩
          simp only [List.length_cons]
          omega
        · rw [if_neg hdl] at h
          cases hgpj : getProject cat.fetchProject gp pid with
          | error e =>
            rw [hgpj] at h
            exact absurd h (by simp)
          | ok r =>
            obtain ⟨gp1, key⟩ := r
            rw [hgpj] at h
            have hgp1 : ∀ p ∈ gp1, p.id ∈ U := by
              rw [getProject] at hgpj
              cases hf : cat.fetchProject pid with
              | error e =>
                rw [hf] at hgpj
                exact absurd hgpj (by simp)
              | ok q =>
                rw [hf] at hgpj
                simp only [Except.ok.injEq, Prod.mk.injEq] at hgpj
                obtain ⟨hh1, _⟩ := hgpj
                subst hh1
                intro p hp
                rcases List.mem_append.mp hp with hp | hp
                · exact hgp p hp
                · rw [List.mem_singleton.mp hp]
                  exact hFetch pid q hf
            obtain ⟨hu, hlen⟩ :=
              ih gp1 ((key, ident + 1) :: todo) downloaded gp' todo' h hgp1
            refine ⟨hu, ?_⟩
            simp only [List.length_cons] at hlen ⊢
            omega

theorem filter_not_mem_cons_card (U : Finset String) (dl : List String)
    (x : String) (hxU : x ∈ U) (hxdl : x ∉ dl) :
    (U.filter (fun id => id ∉ x :: dl)).card + 1
      = (U.filter (fun id => id ∉ dl)).card := by
  have hset : U.filter (fun id => id ∉ x :: dl)
      = (U.filter (fun id => id ∉ dl)).erase x := by
    ext y
    simp only [Finset.mem_filter, Finset.mem_erase, List.mem_cons, not_or]
    tauto
  have hmem : x ∈ U.filter (fun id => id ∉ dl) := by
    simp [Finset.mem_filter, hxU, hxdl]
  rw [hset, Finset.card_erase_of_mem hmem]
  have hpos : 0 < (U.filter (fun id => id ∉ dl)).card :=
    Finset.card_pos.mpr ⟨x, hmem⟩
  omega

theorem loopIter_ok_facts (cat : Catalog) (gv : String)
    (rv : SemanticVersion) (U : Finset String) (B : Nat)
    (hFetch : ∀ id p, cat.fetchProject id = .ok p → p.id ∈ U)
    (hB : ∀ sl vs, cat.fetchVersions sl = .ok vs →
      ∀ v ∈ vs, v.dependencies.length ≤ B)
    (t s' : ResolveState) (key ident : Nat)
    (hgp : ∀ p ∈ t.globalProjects, p.id ∈ U)
    (h : loopIter cat gv rv t key ident = .ok s') :
    (∀ p ∈ s'.globalProjects, p.id ∈ U) ∧
    loopMeasure U B s' ≤ loopMeasure U B t ∧
    ((s'.entries = t.entries ∧ s'.downloaded = t.downloaded) ∨
      ∃ pid fn, pid ∉ t.downloaded ∧
        s'.entries = t.entries ++ [(pid, fn)] ∧
        s'.downloaded = pid :: t.downloaded) := by
  cases hget : t.globalProjects.get? key with
  | none =>
    simp only [loopIter, hget] at h
    exact absurd h (by simp)
  | some project =>
    simp only [loopIter, hget] at h
    by_cases hdl : project.id ∈ t.downloaded
    · rw [if_pos hdl] at h
      injection h with h
      subst h
      exact ⟨hgp, le_refl _, Or.inl ⟨rfl, rfl⟩⟩
    · rw [if_neg hdl] at h
      cases hv : cat.fetchVersions project.slug with
      | error e =>
        simp only [hv] at h
        exact absurd h (by simp)
      | ok versions =>
        simp only [hv] at h
        by_cases hemp : versions.isEmpty
        · rw [if_pos hemp] at h
          injection h with h
          subst h
          exact ⟨hgp, le_refl _, Or.inl ⟨rfl, rfl⟩⟩
        · rw [if_neg hemp] at h
          cases hcl : chooseLatest gv rv versions with
          | none =>
            simp only [hcl] at h
            exact absurd h (by simp)
          | some pr =>
            obtain ⟨latest, sv⟩ := pr
            simp only [hcl] at h
            have hne : versions ≠ [] := by
              intro hx
              rw [hx] at hemp
              exact hemp rfl
            have hlmem : latest ∈ versions := by
              obtain ⟨r, sv', hsome, hmem, _⟩ := chooseLatest_spec gv rv versions hne
              rw [hcl] at hsome
              injection hsome with hsome
              injection hsome with hr _
              exact hr ▸ hmem
            cases hpf : pickFile latest.files with
            | none =>
              simp only [hpf] at h
              exact absurd h (by simp)
            | some primaryFile =>
              simp only [hpf] at h
              cases hdf : cat.downloadFile primaryFile.url with
              | error e =>
                simp only [hdf] at h
                exact absurd h (by simp)
              | ok bytes =>
                simp only [hdf] at h
                cases hpd : processDeps cat ident latest.dependencies
                    t.globalProjects t.todo (hsInsert project.id t.downloaded) with
                | error e =>
                  simp only [hpd] at h
                  exact absurd h (by simp)
                | ok r =>
                  obtain ⟨gp1, todo1⟩ := r
                  simp only [hpd] at h
                  injection h with h
                  subst h
                  have hins : hsInsert project.id t.downloaded
                      = project.id :: t.downloaded := by
                    rw [hsInsert, if_neg hdl]
                  rw [hins] at hpd
                  have hpmem : project ∈ t.globalProjects := List.get?_mem hget
                  have hpidU : project.id ∈ U := hgp project hpmem
                  obtain ⟨hu1, hlen1⟩ := processDeps_ok cat ident U hFetch
                    latest.dependencies t.globalProjects t.todo
                    (project.id :: t.downloaded) gp1 todo1 hpd hgp
                  have hdeps : latest.dependencies.length ≤ B :=
                    hB project.slug versions hv latest hlmem
                  have hcard := filter_not_mem_cons_card U t.downloaded
                    project.id hpidU hdl
                  refine ⟨hu1, ?_, Or.inr ⟨project.id, primaryFile.filename,
                    hdl, ?_, ?_⟩⟩
                  · simp only [loopMeasure, hins]
                    have hx : (U.filter (fun id => id ∉ t.downloaded)).card
                          * (B + 1)
                        = (U.filter (fun id =>
                            id ∉ project.id :: t.downloaded)).card * (B + 1)
                          + (B + 1) := by
                      rw [← hcard]
                      ring
                    omega
                  · simp [hins]
                  · simp [hins]

theorem runFuel_master (cat : Catalog) (gv : String) (rv : SemanticVersion)
    (U : Finset String) (B : Nat)
    (hFetch : ∀ id p, cat.fetchProject id = .ok p → p.id ∈ U)
    (hB : ∀ sl vs, cat.fetchVersions sl = .ok vs →
      ∀ v ∈ vs, v.dependencies.length ≤ B) :
    ∀ (fuel : Nat) (s : ResolveState),
      (∀ p ∈ s.globalProjects, p.id ∈ U) →
      entriesInv s →
      loopMeasure U B s ≤ fuel →
      ∃ r, runFuel cat gv rv fuel s = some r ∧
        ∀ s', r = .ok s' → entriesInv s' := by
  intro fuel
  induction fuel with
  | zero =>
    intro s hgp hinv hm
    have htodo : s.todo = [] := by
      have hlen : s.todo.length = 0 := by
        simp only [loopMeasure] at hm
        omega
      exact List.length_eq_zero.mp hlen
    refine ⟨.ok s, ?_, fun s' hs' => by
      injection hs' with hs'
      exact hs' ▸ hinv⟩
    rw [runFuel, htodo]
  | succ fuel ih =>
    intro s hgp hinv hm
    cases htodo : s.todo with
    | nil =>
      refine ⟨.ok s, ?_, fun s' hs' => by
        injection hs' with hs'
        exact hs' ▸ hinv⟩
      rw [runFuel, htodo]
    | cons ki rest =>
      obtain ⟨key, ident⟩ := ki
      have hm_pop : loopMeasure U B { s with todo := rest } + 1
          = loopMeasure U B s := by
        simp only [loopMeasure, htodo, List.length_cons]
        omega
      cases hli : loopIter cat gv rv { s with todo := rest } key ident with
      | error e =>
        refine ⟨.error e, ?_, fun s' hs' => absurd hs' (by simp)⟩
        simp only [runFuel, htodo, hli]
      | ok s1 =>
        obtain ⟨hu1, hm1, hshape⟩ := loopIter_ok_facts cat gv rv U B hFetch hB
          { s with todo := rest } s1 key ident hgp hli
        have hinv1 : entriesInv s1 := by
          rcases hshape with ⟨he, hd⟩ | ⟨pid, fn, hpid, he, hd⟩
          · have he' : s1.entries = s.entries := he
            have hd' : s1.downloaded = s.downloaded := hd
            exact ⟨he' ▸ hinv.1, fun e hme => by
              rw [hd']
              exact hinv.2 e (he' ▸ hme)⟩
          · have he' : s1.entries = s.entries ++ [(pid, fn)] := he
            have hd' : s1.downloaded = pid :: s.downloaded := hd
            have hpid' : pid ∉ s.downloaded := hpid
            constructor
            · rw [he']
              simp only [List.map_append, List.map_cons, List.map_nil]
              rw [List.nodup_append]
              refine ⟨hinv.1, by simp, ?_⟩
              intro x hx hx'
              simp only [List.mem_singleton] at hx'
              subst hx'
              obtain ⟨e, hme, hfst⟩ := List.mem_map.mp hx
              exact hpid' (hfst ▸ hinv.2 e hme)
            · intro e hme
              rw [hd']
              rw [he'] at hme
              rcases List.mem_append.mp hme with h1 | h1
              · exact List.mem_cons_of_mem _ (hinv.2 e h1)
              · simp only [List.mem_singleton] at h1
                subst h1
                simp
        obtain ⟨r, hrun, hr⟩ := ih s1 hu1 hinv1 (by omega)
        refine ⟨r, ?_, hr⟩
        conv_lhs => rw [runFuel, htodo]
        simp only [hli]
        exact hrun

/-- **C1**: for every catalog session (environment) whose fetchable
project ids lie in a finite universe `U` and whose releases have
out-degree at most `B` — which covers every dependency graph reachable
from the seed set, cycles and shared (diamond) dependencies included —
the `download_zip` resolver loop terminates within
`|U| * (B + 1) + |seeds|` iterations (the step budget is not
exhausted), even though projects with an empty release query are not
memoized and may be revisited; and on normal completion each project id
appears at most once in the output (at most one archive entry per id). -/
theorem downloadLoop_terminates_unique (cat : Catalog) (gv : String)
    (rv : SemanticVersion) (U : Finset String) (B : Nat)
    (gp0 : List Project) (seeds : List Nat)
    (hFetch : ∀ id p, cat.fetchProject id = .ok p → p.id ∈ U)
    (hB : ∀ sl vs, cat.fetchVersions sl = .ok vs →
      ∀ v ∈ vs, v.dependencies.length ≤ B)
    (hgp : ∀ p ∈ gp0, p.id ∈ U) :
    ∃ r, downloadLoop cat gv rv gp0 seeds (U.card * (B + 1) + seeds.length)
        = some r ∧
      ∀ s', r = .ok s' → (s'.entries.map Prod.fst).Nodup := by
  have hinv0 : entriesInv ⟨gp0, seeds.map (fun k => (k, 0)), [], []⟩ :=
    ⟨by simp, by simp⟩
  have hm0 : loopMeasure U B ⟨gp0, seeds.map (fun k => (k, 0)), [], []⟩
      ≤ U.card * (B + 1) + seeds.length := by
    simp only [loopMeasure]
    have hfe : U.filter (fun id => id ∉ ([] : List String)) = U := by
      apply Finset.filter_true_of_mem
      intro x _
      simp
    rw [hfe]
    simp
  obtain ⟨r, hrun, hr⟩ := runFuel_master cat gv rv U B hFetch hB
    (U.card * (B + 1) + seeds.length)
    ⟨gp0, seeds.map (fun k => (k, 0)), [], []⟩ (by simpa using hgp) hinv0 hm0
  exact ⟨r, hrun, fun s' hs' => (hr s' hs').1⟩

theorem downloadLoop_cycle_witness :
    ∃ r, downloadLoop demoCatalog "1.20.1" ⟨1, 20, 1⟩ [projA] [0]
        (({"a", "b"} : Finset String).card * (1 + 1) + 1) = some r ∧
      ∀ s', r = .ok s' → (s'.entries.map Prod.fst).Nodup := by
  apply downloadLoop_terminates_unique demoCatalog "1.20.1" ⟨1, 20, 1⟩
    {"a", "b"} 1 [projA] [0]
  · intro id p h
    simp only [demoCatalog] at h
    by_cases h1 : id = "a"
    · rw [if_pos h1] at h
      injection h with h
      rw [← h]
      decide
    · rw [if_neg h1] at h
      by_cases h2 : id = "b"
      · rw [if_pos h2] at h
        injection h with h
        rw [← h]
        decide
      · rw [if_neg h2] at h
        exact absurd h (by simp)
  · intro sl vs h v hv
    simp only [demoCatalog] at h
    by_cases h1 : sl = "a"
    · rw [if_pos h1] at h
      injection h with h
      rw [← h] at hv
      simp only [List.mem_singleton] at hv
      subst hv
      decide
    · rw [if_neg h1] at h
      by_cases h2 : sl = "b"
      · rw [if_pos h2] at h
        injection h with h
        rw [← h] at hv
        simp only [List.mem_singleton] at hv
        subst hv
        decide
      · rw [if_neg h2] at h
        injection h with h
        rw [← h] at hv
        exact absurd hv (by simp)
  · intro p hp
    simp only [List.mem_singleton] at hp
    subst hp
    decide

end MrModpack
